import Mathlib

/-!
Verification development for the go-multithreaded-proxy repository.

The repository has two source files, both in package `proxy`:
  * `internal/proxy/cache.go` — an LRU cache (`LRUCache`, `CacheItem`,
    `NewLRUCache`, `Get`, `Put`) built from a `map[string]*list.Element`
    and a `container/list` doubly linked list, plus a request handler
    (self-URL mode) that uses the request URL string as cache key.
  * an unnamed file — a request handler (embedded-URL mode) that
    percent-decodes a target URL embedded in the request path.

This file shallowly embeds those definitions:
  * the Go map's key set becomes a `Finset String` (a Go map is an
    unordered key set with O(1) membership; the map values are element
    pointers into the list, which in the embedding are recovered by
    searching the order list for the key — faithful because the map key
    set and the list keys are proved to stay in sync);
  * the doubly linked `list.List` becomes a `List CacheItem` with the
    front of the Go list at the head of the Lean list;
  * `[]byte` values become `List Nat`;
  * the HTTP client is an oracle `String → FetchOutcome` passed to the
    handlers; `http.Error w msg code` is modelled as a response carrying
    the status code and the plain-text message.
-/

namespace Proxy

/-- Embeds Go `CacheItem { key string; value []byte }` from cache.go. -/
structure CacheItem where
  key : String
  value : List Nat
deriving DecidableEq, Repr

/-- Embeds Go `LRUCache` from cache.go: `capacity int`,
`cache map[string]*list.Element` (its key set, as a `Finset`), and
`list *list.List` (front of the Go list = head of `order`).
The `sync.Mutex` field has no sequential content and is omitted. -/
structure LRUCache where
  capacity : Nat
  index : Finset String
  order : List CacheItem
deriving DecidableEq

/-- Embeds Go `NewLRUCache(capacity)`: empty map, empty list. -/
def NewLRUCache (capacity : Nat) : LRUCache :=
  { capacity := capacity, index := ∅, order := [] }

/-- The predicate the Go code uses to tie a map key to its list element. -/
def keyMatch (k : String) (e : CacheItem) : Bool :=
  e.key == k

/-- Embeds Go `LRUCache.Get`: on a map hit, `list.MoveToFront(elem)`
(modelled as removing the unique entry with that key and consing it at
the head) and return `(value, true)`; on a miss return `(nil, false)`
(modelled as `none`) leaving the state untouched.  The inner `none`
branch is unreachable when the map and list are in sync (proved below);
in Go it cannot arise because the map stores the element pointer. -/
def LRUCache.Get (lru : LRUCache) (key : String) : Option (List Nat) × LRUCache :=
  if key ∈ lru.index then
    match lru.order.find? (keyMatch key) with
    | some e => (some e.value, { lru with order := e :: lru.order.eraseP (keyMatch key) })
    | none => (none, lru)
  else
    (none, lru)

/-- Embeds Go `LRUCache.Put`:
if the key is in the map, `MoveToFront` the element and overwrite its
value in place; otherwise, if `len(cache) >= capacity`, take
`list.Back()` and (when non-nil) delete its key from the map and remove
it from the list; then `PushFront` a new item and register it in the
map.  As in `Get`, the inner `none` branch of the hit case is
unreachable when map and list are in sync. -/
def LRUCache.Put (lru : LRUCache) (key : String) (value : List Nat) : LRUCache :=
  if key ∈ lru.index then
    match lru.order.find? (keyMatch key) with
    | some e =>
        { lru with order := { e with value := value } :: lru.order.eraseP (keyMatch key) }
    | none => lru
  else
    let lru1 :=
      if lru.capacity ≤ lru.index.card then
        match lru.order.getLast? with
        | some lastE =>
            { lru with index := lru.index.erase lastE.key, order := lru.order.dropLast }
        | none => lru
      else
        lru
    { lru1 with index := insert key lru1.index, order := ⟨key, value⟩ :: lru1.order }

/-- One client-visible cache operation. -/
inductive CacheOp where
  | get (key : String)
  | put (key : String) (value : List Nat)

/-- Apply one operation, keeping only the resulting cache state. -/
def applyOp (lru : LRUCache) (op : CacheOp) : LRUCache :=
  match op with
  | .get k => (lru.Get k).snd
  | .put k v => lru.Put k v

/-- Run a sequence of operations from a starting state. -/
def runOps (lru : LRUCache) (ops : List CacheOp) : LRUCache :=
  ops.foldl applyOp lru

/-- The keys of the order list, front first. -/
def keys (l : List CacheItem) : List String :=
  l.map CacheItem.key

/-- Well-formedness: the list never repeats a key, the map key set is
exactly the set of list keys, and the list length is within capacity. -/
def WF (lru : LRUCache) : Prop :=
  (keys lru.order).Nodup ∧ lru.index = (keys lru.order).toFinset ∧
    lru.order.length ≤ lru.capacity

theorem wf_new (capacity : Nat) : WF (NewLRUCache capacity) := by
  refine ⟨List.nodup_nil, ?_, ?_⟩ <;> simp [NewLRUCache, keys]

theorem keys_cons (e : CacheItem) (l : List CacheItem) :
    keys (e :: l) = e.key :: keys l := rfl

/-- Replacing the entry found by `find?` with an entry of the same key
at the head is a permutation of the keys. -/
theorem keys_cons_eraseP_perm (k : String) (c : CacheItem) :
    ∀ (l : List CacheItem) (e : CacheItem), l.find? (keyMatch k) = some e → c.key = e.key →
      (keys (c :: l.eraseP (keyMatch k))).Perm (keys l) := by
  intro l
  induction l with
  | nil => intro e h _; simp at h
  | cons a t ih =>
    intro e hfind hkey
    by_cases hpa : keyMatch k a
    · rw [List.find?_cons_of_pos _ hpa] at hfind
      have hea : e = a := by injection hfind with h; exact h.symm
      rw [List.eraseP_cons_of_pos hpa, keys_cons, keys_cons, hkey, hea]
    · rw [List.find?_cons_of_neg _ hpa] at hfind
      rw [List.eraseP_cons_of_neg hpa]
      have h1 : (keys (c :: t.eraseP (keyMatch k))).Perm (keys t) := ih e hfind hkey
      refine List.Perm.trans ?_ (List.Perm.cons a.key h1)
      show (c.key :: a.key :: keys (t.eraseP (keyMatch k))).Perm
          (a.key :: c.key :: keys (t.eraseP (keyMatch k)))
      exact List.Perm.swap _ _ _

theorem find?_mem_key {l : List CacheItem} {k : String} {e : CacheItem}
    (h : l.find? (keyMatch k) = some e) : e.key = k := by
  have := List.find?_some h
  simpa [keyMatch] using this

/-- A key recorded in a well-formed index has a matching list entry. -/
theorem find?_some_of_mem_index {lru : LRUCache} {k : String} (hwf : WF lru)
    (hmem : k ∈ lru.index) : ∃ e, lru.order.find? (keyMatch k) = some e ∧ e.key = k := by
  rw [hwf.2.1, List.mem_toFinset, keys, List.mem_map] at hmem
  obtain ⟨e, hel, hek⟩ := hmem
  cases hfind : lru.order.find? (keyMatch k) with
  | none =>
      rw [List.find?_eq_none] at hfind
      exact absurd (by simp [keyMatch, hek]) (hfind e hel)
  | some e2 => exact ⟨e2, rfl, find?_mem_key hfind⟩

theorem get_hit_eq {lru : LRUCache} {k : String} {e : CacheItem} (hmem : k ∈ lru.index)
    (hfind : lru.order.find? (keyMatch k) = some e) :
    lru.Get k = (some e.value, { lru with order := e :: lru.order.eraseP (keyMatch k) }) := by
  unfold LRUCache.Get
  rw [if_pos hmem, hfind]

theorem get_miss_eq {lru : LRUCache} {k : String} (hmem : k ∉ lru.index) :
    lru.Get k = (none, lru) := by
  unfold LRUCache.Get
  rw [if_neg hmem]

theorem wf_cons_eraseP {lru : LRUCache} {k : String} {e c : CacheItem} (hwf : WF lru)
    (hfind : lru.order.find? (keyMatch k) = some e) (hkey : c.key = e.key) :
    WF { lru with order := c :: lru.order.eraseP (keyMatch k) } := by
  have hperm := keys_cons_eraseP_perm k c lru.order e hfind hkey
  refine ⟨hperm.nodup_iff.mpr hwf.1, ?_, ?_⟩
  · show lru.index = (keys (c :: lru.order.eraseP (keyMatch k))).toFinset
    rw [hwf.2.1, List.toFinset_eq_of_perm _ _ hperm]
  · show (c :: lru.order.eraseP (keyMatch k)).length ≤ lru.capacity
    have hlen : (keys (c :: lru.order.eraseP (keyMatch k))).length = (keys lru.order).length :=
      hperm.length_eq
    simp only [keys, List.length_map] at hlen
    rw [hlen]
    exact hwf.2.2

theorem wf_get (lru : LRUCache) (k : String) (hwf : WF lru) :
    WF (lru.Get k).snd := by
  by_cases hmem : k ∈ lru.index
  · obtain ⟨e, hfind, _⟩ := find?_some_of_mem_index hwf hmem
    rw [get_hit_eq hmem hfind]
    exact wf_cons_eraseP hwf hfind rfl
  · rw [get_miss_eq hmem]
    exact hwf

theorem put_hit_eq {lru : LRUCache} {k : String} {e : CacheItem} (v : List Nat)
    (hmem : k ∈ lru.index) (hfind : lru.order.find? (keyMatch k) = some e) :
    lru.Put k v = { lru with order := { e with value := v } :: lru.order.eraseP (keyMatch k) } := by
  unfold LRUCache.Put
  rw [if_pos hmem, hfind]

theorem put_miss_full_eq {lru : LRUCache} {k : String} {lastE : CacheItem} (v : List Nat)
    (hmem : k ∉ lru.index) (hfull : lru.capacity ≤ lru.index.card)
    (hlast : lru.order.getLast? = some lastE) :
    lru.Put k v = { lru with index := insert k (lru.index.erase lastE.key),
                             order := ⟨k, v⟩ :: lru.order.dropLast } := by
  unfold LRUCache.Put
  rw [if_neg hmem, if_pos hfull, hlast]

theorem put_miss_room_eq {lru : LRUCache} {k : String} (v : List Nat)
    (hmem : k ∉ lru.index) (hroom : ¬lru.capacity ≤ lru.index.card) :
    lru.Put k v = { lru with index := insert k lru.index,
                             order := ⟨k, v⟩ :: lru.order } := by
  unfold LRUCache.Put
  rw [if_neg hmem, if_neg hroom]

theorem card_index_eq_length {lru : LRUCache} (hwf : WF lru) :
    lru.index.card = lru.order.length := by
  rw [hwf.2.1, List.toFinset_card_of_nodup hwf.1]
  simp [keys]

theorem wf_put (lru : LRUCache) (k : String) (v : List Nat) (hwf : WF lru)
    (hcap : 0 < lru.capacity) : WF (lru.Put k v) := by
  obtain ⟨hnd0, hidx0, hlen0⟩ := hwf
  by_cases hmem : k ∈ lru.index
  · obtain ⟨e, hfind, _⟩ := find?_some_of_mem_index ⟨hnd0, hidx0, hlen0⟩ hmem
    rw [put_hit_eq v hmem hfind]
    exact wf_cons_eraseP ⟨hnd0, hidx0, hlen0⟩ hfind rfl
  · have hkeysnot : k ∉ keys lru.order := by
      intro hk
      exact hmem (by rw [hidx0, List.mem_toFinset]; exact hk)
    have hcard : lru.index.card = lru.order.length :=
      card_index_eq_length ⟨hnd0, hidx0, hlen0⟩
    by_cases hfull : lru.capacity ≤ lru.index.card
    · -- eviction branch
      have hlenpos : 0 < lru.order.length := by omega
      have hne : lru.order ≠ [] := by
        intro h0; rw [h0] at hlenpos; simp at hlenpos
      have hlast : lru.order.getLast? = some (lru.order.getLast hne) :=
        List.getLast?_eq_getLast_of_ne_nil hne
      rw [put_miss_full_eq v hmem hfull hlast]
      set lastE := lru.order.getLast hne with hlastE
      have hdecomp : keys lru.order.dropLast ++ [lastE.key] = keys lru.order := by
        have h1 := List.dropLast_append_getLast hne
        calc keys lru.order.dropLast ++ [lastE.key]
            = keys (lru.order.dropLast ++ [lastE]) := by simp [keys]
          _ = keys lru.order := by rw [hlastE]; rw [h1]
      have hnd : (keys lru.order.dropLast ++ [lastE.key]).Nodup := by
        rw [hdecomp]; exact hnd0
      have hndrop : (keys lru.order.dropLast).Nodup := (List.nodup_append.mp hnd).1
      have hlastnot : lastE.key ∉ keys lru.order.dropLast := by
        intro hk
        exact (List.nodup_append.mp hnd).2.2 hk (by simp)
      have hknotdrop : k ∉ keys lru.order.dropLast := by
        intro hk
        exact hkeysnot (by rw [← hdecomp]; exact List.mem_append_left _ hk)
      have hidx1 : lru.index.erase lastE.key = (keys lru.order.dropLast).toFinset := by
        rw [hidx0, ← hdecomp]
        ext x
        simp only [Finset.mem_erase, List.mem_toFinset, List.mem_append, List.mem_singleton]
        constructor
        · rintro ⟨hxne, hx | hx⟩
          · exact hx
          · exact absurd hx hxne
        · intro hx
          refine ⟨?_, Or.inl hx⟩
          intro hxe; rw [hxe] at hx; exact hlastnot hx
      refine ⟨?_, ?_, ?_⟩
      · show (keys (⟨k, v⟩ :: lru.order.dropLast)).Nodup
        rw [keys_cons]
        exact List.nodup_cons.mpr ⟨hknotdrop, hndrop⟩
      · show insert k (lru.index.erase lastE.key)
            = (keys (⟨k, v⟩ :: lru.order.dropLast)).toFinset
        rw [keys_cons, List.toFinset_cons, hidx1]
      · show (⟨k, v⟩ :: lru.order.dropLast : List CacheItem).length ≤ lru.capacity
        simp only [List.length_cons, List.length_dropLast]
        omega
    · -- room available, no eviction
      rw [put_miss_room_eq v hmem hfull]
      refine ⟨?_, ?_, ?_⟩
      · show (keys (⟨k, v⟩ :: lru.order)).Nodup
        rw [keys_cons]
        exact List.nodup_cons.mpr ⟨hkeysnot, hnd0⟩
      · show insert k lru.index = (keys (⟨k, v⟩ :: lru.order)).toFinset
        rw [keys_cons, List.toFinset_cons, hidx0]
      · show (⟨k, v⟩ :: lru.order : List CacheItem).length ≤ lru.capacity
        simp only [List.length_cons]
        omega

theorem capacity_get (lru : LRUCache) (k : String) :
    (lru.Get k).snd.capacity = lru.capacity := by
  unfold LRUCache.Get
  by_cases hmem : k ∈ lru.index
  · rw [if_pos hmem]
    cases lru.order.find? (keyMatch k) <;> rfl
  · rw [if_neg hmem]

theorem capacity_put (lru : LRUCache) (k : String) (v : List Nat) :
    (lru.Put k v).capacity = lru.capacity := by
  unfold LRUCache.Put
  by_cases hmem : k ∈ lru.index
  · rw [if_pos hmem]
    cases lru.order.find? (keyMatch k) <;> rfl
  · rw [if_neg hmem]
    by_cases hfull : lru.capacity ≤ lru.index.card
    · rw [if_pos hfull]
      cases lru.order.getLast? <;> rfl
    · rw [if_neg hfull]

theorem wf_applyOp (lru : LRUCache) (op : CacheOp) (hwf : WF lru)
    (hcap : 0 < lru.capacity) : WF (applyOp lru op) := by
  cases op with
  | get k => exact wf_get lru k hwf
  | put k v => exact wf_put lru k v hwf hcap

theorem capacity_applyOp (lru : LRUCache) (op : CacheOp) :
    (applyOp lru op).capacity = lru.capacity := by
  cases op with
  | get k => exact capacity_get lru k
  | put k v => exact capacity_put lru k v

theorem wf_runOps :
    ∀ (ops : List CacheOp) (lru : LRUCache), WF lru → 0 < lru.capacity →
      WF (runOps lru ops) ∧ (runOps lru ops).capacity = lru.capacity := by
  intro ops
  induction ops with
  | nil => intro lru hwf _; exact ⟨hwf, rfl⟩
  | cons op rest ih =>
    intro lru hwf hcap
    have h1 := wf_applyOp lru op hwf hcap
    have h2 := capacity_applyOp lru op
    have h3 := ih (applyOp lru op) h1 (by rw [h2]; exact hcap)
    refine ⟨h3.1, ?_⟩
    rw [runOps] at h3 ⊢
    simp only [List.foldl_cons]
    rw [h3.2, h2]

/-- Looking up a key that matches the head entry returns that entry's
value and leaves the state unchanged (`MoveToFront` of the front element
is the identity). -/
theorem get_head_match (lru : LRUCache) (k : String) (e : CacheItem) (rest : List CacheItem)
    (horder : lru.order = e :: rest) (he : keyMatch k e) (hmem : k ∈ lru.index) :
    lru.Get k = (some e.value, lru) := by
  have hfind : lru.order.find? (keyMatch k) = some e := by
    rw [horder]; exact List.find?_cons_of_pos _ he
  rw [get_hit_eq hmem hfind]
  have herase : lru.order.eraseP (keyMatch k) = rest := by
    rw [horder]; exact List.eraseP_cons_of_pos he
  rw [herase, ← horder]

/-- After `Put k v`, `Get k` returns `v` without modifying the state. -/
theorem put_get {lru : LRUCache} (k : String) (v : List Nat) (hwf : WF lru) :
    (lru.Put k v).Get k = (some v, lru.Put k v) := by
  by_cases hmem : k ∈ lru.index
  · obtain ⟨e, hfind, hek⟩ := find?_some_of_mem_index hwf hmem
    rw [put_hit_eq v hmem hfind]
    exact get_head_match
      { lru with order := { e with value := v } :: lru.order.eraseP (keyMatch k) }
      k { e with value := v } (lru.order.eraseP (keyMatch k)) rfl
      (by simp [keyMatch, hek]) hmem
  · by_cases hfull : lru.capacity ≤ lru.index.card
    · cases hlastq : lru.order.getLast? with
      | none =>
          -- empty order: the Go code skips eviction when Back() is nil
          have hres : lru.Put k v = { lru with index := insert k lru.index,
                                               order := ⟨k, v⟩ :: lru.order } := by
            unfold LRUCache.Put
            rw [if_neg hmem, if_pos hfull, hlastq]
          rw [hres]
          exact get_head_match
            { lru with index := insert k lru.index, order := ⟨k, v⟩ :: lru.order }
            k ⟨k, v⟩ lru.order rfl (by simp [keyMatch]) (Finset.mem_insert_self k _)
      | some lastE =>
          rw [put_miss_full_eq v hmem hfull hlastq]
          exact get_head_match
            { lru with index := insert k (lru.index.erase lastE.key),
                       order := ⟨k, v⟩ :: lru.order.dropLast }
            k ⟨k, v⟩ lru.order.dropLast rfl (by simp [keyMatch]) (Finset.mem_insert_self k _)
    · rw [put_miss_room_eq v hmem hfull]
      exact get_head_match
        { lru with index := insert k lru.index, order := ⟨k, v⟩ :: lru.order }
        k ⟨k, v⟩ lru.order rfl (by simp [keyMatch]) (Finset.mem_insert_self k _)

/-! Embedding of the embedded-URL-mode handler (the unnamed source
file): `strings.TrimPrefix(r.URL.Path, "/")`, `url.QueryUnescape`, the
`http://`/`https://` check, the outbound `http.Get`, and the error
responses written with `http.Error`. -/

/-- Embeds Go `unhex` (net/url): value of a hex digit, `none` if the
character is not a hex digit. -/
def unhex (c : Char) : Option Nat :=
  if '0' ≤ c ∧ c ≤ '9' then some (c.toNat - '0'.toNat)
  else if 'a' ≤ c ∧ c ≤ 'f' then some (c.toNat - 'a'.toNat + 10)
  else if 'A' ≤ c ∧ c ≤ 'F' then some (c.toNat - 'A'.toNat + 10)
  else none

/-- Embeds Go `url.QueryUnescape` on the character list: `%XY` with two
hex digits decodes to the byte `16*X + Y`, a `%` not followed by two hex
digits is an error (Go `EscapeError`), `+` decodes to a space in query
mode, every other character passes through. -/
def queryUnescapeList : List Char → Option (List Char)
  | [] => some []
  | '%' :: c1 :: c2 :: rest =>
    match unhex c1, unhex c2 with
    | some h1, some h2 => (queryUnescapeList rest).map (fun cs => Char.ofNat (16 * h1 + h2) :: cs)
    | _, _ => none
  | '%' :: _ => none
  | '+' :: rest => (queryUnescapeList rest).map (fun cs => ' ' :: cs)
  | c :: rest => (queryUnescapeList rest).map (fun cs => c :: cs)

/-- `url.QueryUnescape` on strings. -/
def queryUnescape (s : String) : Option String :=
  (queryUnescapeList s.data).map (fun cs => String.mk cs)

/-- Embeds `strings.TrimPrefix(path, "/")`: drop one leading slash when
present, otherwise return the string unchanged. -/
def trimLeadingSlash (s : String) : String :=
  match s.data with
  | '/' :: rest => String.mk rest
  | _ => s

/-- `p` is a leading substring of `s` (embeds `strings.HasPrefix`). -/
def leadsWith : List Char → List Char → Bool
  | [], _ => true
  | _ :: _, [] => false
  | p :: ps, c :: cs => (p == c) && leadsWith ps cs

/-- `strings.HasPrefix(s, pre)` on strings. -/
def hasLead (s pre : String) : Bool :=
  leadsWith pre.data s.data

/-- Outcome of the outbound `http.Get` as seen by the embedded-URL
handler: a transport error, or a response with status, headers, and
fully read body. -/
inductive FetchOutcome where
  | transportError
  | success (status : Nat) (headers : List (String × String)) (body : List Nat)

/-- What the embedded-URL handler writes back: either an `http.Error`
plain-text response, or the upstream status/headers/body copied over. -/
inductive EmbResponse where
  | errText (status : Nat) (msg : String)
  | upstream (status : Nat) (headers : List (String × String)) (body : List Nat)
deriving DecidableEq

/-- Embeds `handleRequest` of the unnamed source file (embedded-URL
mode).  `path` is `r.URL.Path`; `fetch` is the oracle for `http.Get`. -/
def handleRequestEmbedded (path : String) (fetch : String → FetchOutcome) : EmbResponse :=
  let targetURL := trimLeadingSlash path
  match queryUnescape targetURL with
  | none => .errText 400 "Invalid URL encoding"
  | some target =>
    if ¬hasLead target "http://" ∧ ¬hasLead target "https://" then
      .errText 400 "Invalid target URL"
    else
      match fetch target with
      | .transportError => .errText 502 "Failed to reach target server"
      | .success st hs b => .upstream st hs b

/-! Embedding of the self-URL-mode handler (`handleRequest` in
cache.go): cache lookup keyed by `r.URL.String()`, outbound
`client.Get`, `io.ReadAll`, cache store, response write. -/

/-- Outcome of `client.Get` followed by `io.ReadAll` as seen by the
self-URL handler: transport error, body-read error, or a fully read
body with the upstream status code. -/
inductive SelfFetch where
  | fetchError
  | readError
  | success (status : Nat) (body : List Nat)

/-- What the self-URL handler writes back: an `http.Error` plain-text
response, or raw body bytes via `w.Write` (status and headers of the
upstream response are not replayed). -/
inductive SelfResponse where
  | errText (status : Nat) (msg : String)
  | bodyBytes (b : List Nat)
deriving DecidableEq

/-- Result of one self-URL-mode request: the response written, the
cache state afterwards, and whether an outbound fetch was issued. -/
structure HandleResult where
  response : SelfResponse
  cache : LRUCache
  fetched : Bool

/-- Embeds `handleRequest` of cache.go (self-URL mode).  `urlString` is
`r.URL.String()`, used both as cache key and as fetch target; `fetch`
is the oracle for `client.Get` + `io.ReadAll`.  On a cache hit the
cached bytes are written and the handler returns; on a miss a fetch
error yields 502, a read error 500, and a fully read body is stored in
the cache (whatever the upstream status was) and written back. -/
def handleRequestSelf (urlString : String) (fetch : String → SelfFetch)
    (c : LRUCache) : HandleResult :=
  match c.Get urlString with
  | (some cachedResp, c1) => ⟨.bodyBytes cachedResp, c1, false⟩
  | (none, c1) =>
    match fetch urlString with
    | .fetchError => ⟨.errText 502 "Failed to fetch from target", c1, true⟩
    | .readError => ⟨.errText 500 "Failed to read response", c1, true⟩
    | .success _status body => ⟨.bodyBytes body, c1.Put urlString body, true⟩

instance (lru : LRUCache) : Decidable (WF lru) := by
  unfold WF
  infer_instance

theorem countP_keyMatch (k : String) (l : List CacheItem) :
    l.countP (keyMatch k) = (keys l).count k := by
  simp only [keys, List.count, List.countP_map]
  rfl

/-! Claim theorems. -/

/-- Claim C1: for every cache created with a positive capacity and
every sequence of Get and Put operations, after each operation the
number of keys in the index map equals the number of entries in the
order list, that common size is at most the capacity, and every key in
the index denotes exactly one entry in the order list.  `Get` and `Put`
are total functions of the embedding, so no operation can fail.  The
operation list is universally quantified, so the invariant holds after
every prefix of any operation sequence. -/
theorem c1_cache_invariants (cap : Nat) (hcap : 0 < cap) (ops : List CacheOp) :
    (runOps (NewLRUCache cap) ops).index.card = (runOps (NewLRUCache cap) ops).order.length ∧
    (runOps (NewLRUCache cap) ops).order.length ≤ cap ∧
    ∀ k ∈ (runOps (NewLRUCache cap) ops).index,
      (runOps (NewLRUCache cap) ops).order.countP (keyMatch k) = 1 := by
  obtain ⟨hwf, hc⟩ := wf_runOps ops (NewLRUCache cap) (wf_new cap) hcap
  refine ⟨card_index_eq_length hwf, ?_, ?_⟩
  · have h1 := hwf.2.2
    rw [hc] at h1
    exact h1
  · intro k hk
    rw [hwf.2.1, List.mem_toFinset] at hk
    rw [countP_keyMatch]
    exact List.count_eq_one_of_mem hwf.1 hk

/-- Witness for C1 at capacity 2 and a concrete operation sequence. -/
theorem c1_cache_invariants_witness :
    (runOps (NewLRUCache 2) [CacheOp.put "a" [1], CacheOp.get "a",
        CacheOp.put "b" [2], CacheOp.put "c" [3]]).index.card
      = (runOps (NewLRUCache 2) [CacheOp.put "a" [1], CacheOp.get "a",
        CacheOp.put "b" [2], CacheOp.put "c" [3]]).order.length ∧
    (runOps (NewLRUCache 2) [CacheOp.put "a" [1], CacheOp.get "a",
        CacheOp.put "b" [2], CacheOp.put "c" [3]]).order.length ≤ 2 ∧
    (runOps (NewLRUCache 2) [CacheOp.put "a" [1], CacheOp.get "a",
        CacheOp.put "b" [2], CacheOp.put "c" [3]]).order.countP (keyMatch "c") = 1 := by
  have h := c1_cache_invariants 2 (by decide)
    [CacheOp.put "a" [1], CacheOp.get "a", CacheOp.put "b" [2], CacheOp.put "c" [3]]
  exact ⟨h.1, h.2.1, h.2.2 "c" (by decide)⟩

/-- Claim C2: a `Put` of an absent key into a full cache evicts exactly
the least-recently-touched entry — the tail of the order list — and
keeps every other key; both `Get` hits and `Put`s count as touches, as
the two capacity-2 scenarios from the spec show. -/
theorem c2_eviction_order :
    (∀ (lru : LRUCache) (k : String) (v : List Nat), WF lru → 0 < lru.capacity →
        lru.index.card = lru.capacity → k ∉ lru.index →
        ∃ lastE, lru.order.getLast? = some lastE ∧
          lru.Put k v = { lru with index := insert k (lru.index.erase lastE.key),
                                   order := ⟨k, v⟩ :: lru.order.dropLast } ∧
          lastE.key ∉ (lru.Put k v).index ∧
          ∀ k2 ∈ lru.index, k2 ≠ lastE.key → k2 ∈ (lru.Put k v).index) ∧
    ((let s := runOps (NewLRUCache 2) [.put "a" [1], .put "b" [2], .put "c" [3]]
      (s.Get "a").fst = none ∧ (s.Get "b").fst = some [2] ∧
        (((s.Get "b").snd).Get "c").fst = some [3]) ∧
     (let s := runOps (NewLRUCache 2) [.put "a" [1], .put "b" [2], .get "a", .put "c" [3]]
      (s.Get "b").fst = none ∧ (((s.Get "b").snd).Get "a").fst = some [1])) := by
  refine ⟨?_, by decide, by decide⟩
  intro lru k v hwf hcap hfullcard hmem
  have hcard := card_index_eq_length hwf
  have hfull : lru.capacity ≤ lru.index.card := le_of_eq hfullcard.symm
  have hlenpos : 0 < lru.order.length := by omega
  have hne : lru.order ≠ [] := by
    intro h0; rw [h0] at hlenpos; simp at hlenpos
  have hlast : lru.order.getLast? = some (lru.order.getLast hne) :=
    List.getLast?_eq_getLast_of_ne_nil hne
  refine ⟨lru.order.getLast hne, hlast, put_miss_full_eq v hmem hfull hlast, ?_, ?_⟩
  · rw [put_miss_full_eq v hmem hfull hlast]
    have hkne : (lru.order.getLast hne).key ≠ k := by
      intro hkeq
      apply hmem
      rw [← hkeq, hwf.2.1, List.mem_toFinset, keys, List.mem_map]
      exact ⟨lru.order.getLast hne, List.getLast_mem hne, rfl⟩
    simp only [Finset.mem_insert, not_or]
    exact ⟨hkne, Finset.not_mem_erase _ _⟩
  · intro k2 hk2 hk2ne
    rw [put_miss_full_eq v hmem hfull hlast]
    exact Finset.mem_insert_of_mem (Finset.mem_erase.mpr ⟨hk2ne, hk2⟩)

/-- Witness for C2: evicting from a full capacity-1 cache. -/
theorem c2_eviction_order_witness :
    ((runOps (NewLRUCache 1) [CacheOp.put "a" [1]]).Put "b" [2]).order = [⟨"b", [2]⟩] ∧
    "a" ∉ ((runOps (NewLRUCache 1) [CacheOp.put "a" [1]]).Put "b" [2]).index := by
  obtain ⟨lastE, hlast, hput, hnot, _⟩ :=
    c2_eviction_order.1 (runOps (NewLRUCache 1) [CacheOp.put "a" [1]]) "b" [2]
      (by decide) (by decide) (by decide) (by decide)
  have hlastE : lastE = ⟨"a", [1]⟩ := by
    have : (runOps (NewLRUCache 1) [CacheOp.put "a" [1]]).order.getLast?
        = some (⟨"a", [1]⟩ : CacheItem) := by decide
    rw [this] at hlast
    injection hlast with h
    exact h.symm
  constructor
  · rw [hput]
    show (⟨"b", [2]⟩ : CacheItem) :: (runOps (NewLRUCache 1) [CacheOp.put "a" [1]]).order.dropLast
        = [⟨"b", [2]⟩]
    decide
  · rw [hlastE] at hnot
    exact hnot

/-- Claim C3: `Put` of a key already present updates the stored value
in place, moves the entry to the head, and does not change the key set
or the size; `Put(a,1); Put(a,2)` leaves the size unchanged and
`Get(a)` returns `[2]`. -/
theorem c3_update_in_place :
    (∀ (lru : LRUCache) (k : String) (v : List Nat), WF lru → k ∈ lru.index →
        (lru.Put k v).index = lru.index ∧
        (lru.Put k v).order.length = lru.order.length ∧
        (lru.Put k v).order.head? = some ⟨k, v⟩ ∧
        ((lru.Put k v).Get k).fst = some v) ∧
    (let s1 := (NewLRUCache 2).Put "a" [1]
     let s2 := s1.Put "a" [2]
     s2.order.length = s1.order.length ∧ (s2.Get "a").fst = some [2]) := by
  refine ⟨?_, by decide⟩
  intro lru k v hwf hmem
  obtain ⟨e, hfind, hek⟩ := find?_some_of_mem_index hwf hmem
  have hput := put_hit_eq v hmem hfind
  refine ⟨by rw [hput], ?_, ?_, ?_⟩
  · rw [hput]
    have hperm := keys_cons_eraseP_perm k { e with value := v } lru.order e hfind rfl
    have hlen := hperm.length_eq
    simp only [keys, List.length_map] at hlen
    exact hlen
  · rw [hput]
    show some ({ e with value := v } : CacheItem) = some ⟨k, v⟩
    rw [hek]
  · rw [put_get k v hwf]

/-- Witness for C3 at a concrete present key. -/
theorem c3_update_in_place_witness :
    (((NewLRUCache 2).Put "a" [1]).Put "a" [2]).index = ((NewLRUCache 2).Put "a" [1]).index ∧
    (((NewLRUCache 2).Put "a" [1]).Put "a" [2]).order.length
      = ((NewLRUCache 2).Put "a" [1]).order.length ∧
    ((((NewLRUCache 2).Put "a" [1]).Put "a" [2]).Get "a").fst = some [2] := by
  have h := c3_update_in_place.1 ((NewLRUCache 2).Put "a" [1]) "a" [2] (by decide) (by decide)
  exact ⟨h.1, h.2.1, h.2.2.2⟩

/-- Claim C4: `Get` of an absent key returns a miss and leaves the
whole cache state — key set, stored values, and recency order —
unchanged (the Go code returns `(nil, false)` before touching
anything). -/
theorem c4_get_miss_frame (lru : LRUCache) (k : String) (hmem : k ∉ lru.index) :
    lru.Get k = (none, lru) :=
  get_miss_eq hmem

/-- Witness for C4 on a concrete absent key. -/
theorem c4_get_miss_frame_witness :
    (runOps (NewLRUCache 2) [CacheOp.put "a" [1]]).Get "z"
      = (none, runOps (NewLRUCache 2) [CacheOp.put "a" [1]]) :=
  c4_get_miss_frame (runOps (NewLRUCache 2) [CacheOp.put "a" [1]]) "z" (by decide)

/-- Claim C5: a `Get` immediately after `Put k v` returns exactly the
stored byte sequence `v` (in fact the state is also unchanged by that
`Get`, since the entry is already at the head). -/
theorem c5_round_trip (lru : LRUCache) (k : String) (v : List Nat) (hwf : WF lru) :
    ((lru.Put k v).Get k).fst = some v := by
  rw [put_get k v hwf]

/-- Witness for C5 with a concrete byte sequence. -/
theorem c5_round_trip_witness :
    (((NewLRUCache 10).Put "k" [0, 255, 7]).Get "k").fst = some [0, 255, 7] :=
  c5_round_trip (NewLRUCache 10) "k" [0, 255, 7] (by decide)

/-- Claim C6: the embedded-URL handler strips one leading slash,
percent-decodes the remainder, answers 400 "Invalid URL encoding" when
decoding fails, 400 "Invalid target URL" when the decoded string starts
with neither `http://` nor `https://`, fetches the decoded string
otherwise and answers 502 "Failed to reach target server" on a fetch
failure; `/http%3A%2F%2Fexample.com` resolves to the target
`http://example.com`. -/
theorem c6_embedded_mode :
    (∀ (path : String) (fetch : String → FetchOutcome),
        queryUnescape (trimLeadingSlash path) = none →
        handleRequestEmbedded path fetch = .errText 400 "Invalid URL encoding") ∧
    (∀ (path target : String) (fetch : String → FetchOutcome),
        queryUnescape (trimLeadingSlash path) = some target →
        hasLead target "http://" = false → hasLead target "https://" = false →
        handleRequestEmbedded path fetch = .errText 400 "Invalid target URL") ∧
    (∀ (path target : String) (fetch : String → FetchOutcome),
        queryUnescape (trimLeadingSlash path) = some target →
        (hasLead target "http://" = true ∨ hasLead target "https://" = true) →
        fetch target = .transportError →
        handleRequestEmbedded path fetch = .errText 502 "Failed to reach target server") ∧
    queryUnescape (trimLeadingSlash "/http%3A%2F%2Fexample.com") = some "http://example.com" ∧
    (∀ (fetch : String → FetchOutcome) (st : Nat) (hs : List (String × String)) (b : List Nat),
        fetch "http://example.com" = .success st hs b →
        handleRequestEmbedded "/http%3A%2F%2Fexample.com" fetch = .upstream st hs b) := by
  refine ⟨?_, ?_, ?_, by decide, ?_⟩
  · intro path fetch hdec
    simp only [handleRequestEmbedded]
    rw [hdec]
  · intro path target fetch hdec h1 h2
    simp only [handleRequestEmbedded]
    rw [hdec]
    simp [h1, h2]
  · intro path target fetch hdec hscheme hfetch
    simp only [handleRequestEmbedded]
    rw [hdec]
    have hcond : ¬(¬hasLead target "http://" ∧ ¬hasLead target "https://") := by
      rcases hscheme with h | h <;> simp [h]
    dsimp only
    rw [if_neg hcond, hfetch]
  · intro fetch st hs b hfetch
    have hdec : queryUnescape (trimLeadingSlash "/http%3A%2F%2Fexample.com")
        = some "http://example.com" := by decide
    simp only [handleRequestEmbedded]
    rw [hdec]
    have hcond : ¬(¬hasLead "http://example.com" "http://"
        ∧ ¬hasLead "http://example.com" "https://") := by decide
    dsimp only
    rw [if_neg hcond, hfetch]

/-- Witness for C6: a target without a scheme is rejected with 400. -/
theorem c6_embedded_mode_witness :
    handleRequestEmbedded "/example.com" (fun _ => FetchOutcome.transportError)
      = .errText 400 "Invalid target URL" :=
  c6_embedded_mode.2.1 "/example.com" "example.com" (fun _ => FetchOutcome.transportError)
    (by decide) (by decide) (by decide)

/-- Claim C7: in self-URL mode, on a cache miss the handler answers
502 "Failed to fetch from target" exactly when the outbound fetch
fails, and 500 "Failed to read response" exactly when the body read
fails; each handler run writes exactly one response (the embedding
returns a single `response` value by construction). -/
theorem c7_self_miss_errors (c : LRUCache) (r : String) (fetch : String → SelfFetch)
    (hmem : r ∉ c.index) :
    (((handleRequestSelf r fetch c).response = .errText 502 "Failed to fetch from target")
        ↔ fetch r = .fetchError) ∧
    (((handleRequestSelf r fetch c).response = .errText 500 "Failed to read response")
        ↔ fetch r = .readError) := by
  have hget := get_miss_eq hmem
  unfold handleRequestSelf
  rw [hget]
  cases hf : fetch r <;> simp

/-- Witness for C7: a failing fetch on an empty cache yields the 502
response, and a failing body read yields the 500 response. -/
theorem c7_self_miss_errors_witness :
    (handleRequestSelf "http://x/a" (fun _ => SelfFetch.fetchError) (NewLRUCache 10)).response
      = .errText 502 "Failed to fetch from target" ∧
    (handleRequestSelf "http://x/a" (fun _ => SelfFetch.readError) (NewLRUCache 10)).response
      = .errText 500 "Failed to read response" :=
  ⟨(c7_self_miss_errors (NewLRUCache 10) "http://x/a" (fun _ => SelfFetch.fetchError)
      (by decide)).1.mpr rfl,
   (c7_self_miss_errors (NewLRUCache 10) "http://x/a" (fun _ => SelfFetch.readError)
      (by decide)).2.mpr rfl⟩

/-- Claim C8: in self-URL mode, every request whose key is present in
the cache — wherever its entry sits in the recency order — writes
exactly the byte sequence stored under that key as the body and issues
no outbound fetch; the response carries only the raw bytes, since the
hit branch (`w.Write(cachedResp)` in the code) has no status or header
fields to replay.  `⟨r, v⟩ ∈ c.order` says that `v` is the byte
sequence previously stored under key `r` (unique under `WF`). -/
theorem c8_cache_hit_serves_stored (c : LRUCache) (r : String) (v : List Nat)
    (fetch : String → SelfFetch) (hwf : WF c)
    (hstored : (⟨r, v⟩ : CacheItem) ∈ c.order) :
    (handleRequestSelf r fetch c).response = .bodyBytes v ∧
    (handleRequestSelf r fetch c).fetched = false := by
  have hmem : r ∈ c.index := by
    rw [hwf.2.1, List.mem_toFinset, keys, List.mem_map]
    exact ⟨⟨r, v⟩, hstored, rfl⟩
  obtain ⟨e, hfind, hek⟩ := find?_some_of_mem_index hwf hmem
  have hee : e = ⟨r, v⟩ := by
    refine List.inj_on_of_nodup_map hwf.1 (List.mem_of_find?_eq_some hfind) hstored ?_
    rw [hek]
  constructor <;>
    · unfold handleRequestSelf
      rw [get_hit_eq hmem hfind, hee]

/-- Witness for C8: a hit on a key whose entry is not at the head of
the recency order (state after `Put a; Put b`, request for `a`). -/
theorem c8_cache_hit_serves_stored_witness :
    (handleRequestSelf "a" (fun _ => SelfFetch.fetchError)
        (runOps (NewLRUCache 2) [CacheOp.put "a" [1], CacheOp.put "b" [2]])).response
      = .bodyBytes [1] ∧
    (handleRequestSelf "a" (fun _ => SelfFetch.fetchError)
        (runOps (NewLRUCache 2) [CacheOp.put "a" [1], CacheOp.put "b" [2]])).fetched
      = false :=
  c8_cache_hit_serves_stored
    (runOps (NewLRUCache 2) [CacheOp.put "a" [1], CacheOp.put "b" [2]]) "a" [1]
    (fun _ => SelfFetch.fetchError) (by decide) (by decide)

/-- Claim C10: in self-URL mode, on a cache miss with a fetch that
returns a fully read body, the handler stores `(key, body)` whatever
the upstream status code was (the status is quantified and unused), and
a subsequent `Get` of that key returns the stored body verbatim. -/
theorem c10_caches_regardless_of_status (c : LRUCache) (r : String) (st : Nat)
    (body : List Nat) (fetch : String → SelfFetch) (hwf : WF c) (hmem : r ∉ c.index)
    (hfetch : fetch r = .success st body) :
    handleRequestSelf r fetch c = ⟨.bodyBytes body, c.Put r body, true⟩ ∧
    ((c.Put r body).Get r).fst = some body := by
  constructor
  · have hget := get_miss_eq hmem
    unfold handleRequestSelf
    rw [hget, hfetch]
  · rw [put_get r body hwf]

/-- Witness for C10: an upstream 404 body is cached and served. -/
theorem c10_caches_regardless_of_status_witness :
    handleRequestSelf "http://x/missing" (fun _ => SelfFetch.success 404 [52, 48, 52])
        (NewLRUCache 10)
      = ⟨.bodyBytes [52, 48, 52], (NewLRUCache 10).Put "http://x/missing" [52, 48, 52], true⟩ ∧
    (((NewLRUCache 10).Put "http://x/missing" [52, 48, 52]).Get "http://x/missing").fst
      = some [52, 48, 52] :=
  c10_caches_regardless_of_status (NewLRUCache 10) "http://x/missing" 404 [52, 48, 52]
    (fun _ => SelfFetch.success 404 [52, 48, 52]) (by decide) (by decide) rfl

end Proxy
